import Mathlib

/-!
Verification of the risk-scan program (`riskScan.go`).

Shallow embedding conventions:
* Go `float64` risk values are modelled as exact rationals (`ℚ`); every risk
  constant in the program is a short decimal literal and every claim depends
  only on comparisons and clamping, which the exact rationals reproduce.
* Instants (`time.Time`) are modelled as `Int` seconds; `t.After(u)` is `t > u`.
* `fs.FileInfo` is a record of the fields the program can observe
  (`Name`, `Size`, `ModTime`, `IsDir`, `Mode`); the walk passes it as an
  `Option FileInfo`, `none` standing for the nil interface that
  `filepath.Walk` hands to the callback when `lstat` on an entry fails.
* A function that can panic returns `Option _`; `none` is the panic.
* `filepath.Walk` itself is external library code: the traversal is modelled
  as an explicit list of callback events, each carrying the path, the
  optional `FileInfo` and the optional error, exactly the callback's inputs.
* `filepath.Abs` is external library code, modelled as: an absolute path is
  returned unchanged, a relative one is joined to the working directory
  (path cleaning is omitted; no claim depends on it).
* `time.Now()` is modelled by an explicit `now : Int` parameter.
-/

namespace RiskScan

/-- Constant block of the program: `hoursInWeek = 24 * 7`. -/
def hoursInWeek : Int := 24 * 7

/-- Constant block of the program: `maxRisk = 1.00`. -/
def maxRisk : ℚ := 1

/-- Constant block of the program: `minRisk = 0.00`. -/
def minRisk : ℚ := 0

/-- Constant block of the program: `dirArg = "--dir"`. -/
def dirArg : String := "--dir"

/-- Constant block of the program: `outArg = "--out"`. -/
def outArg : String := "--out"

/-- Constant block of the program: `maxResults = 10`. -/
def maxResults : Nat := 10

/-- Go struct `FileResult`: a file path and its associated risk. -/
structure FileResult where
  Path : String
  Risk : ℚ
deriving DecidableEq, Inhabited

/-- Go struct `DirResult`: a directory, potentially containing files with risks. -/
structure DirResult where
  Dir : String
  Results : List FileResult
deriving DecidableEq, Inhabited

/-- The observable fields of Go's `fs.FileInfo` interface. -/
structure FileInfo where
  name : String
  size : Int
  modTime : Int
  isDir : Bool
  mode : Nat
deriving DecidableEq, Inhabited

/-- `initExtensionRiskMap`: the extension-to-risk table built once at start;
the Go map is modelled as an association list with the same entries. -/
def initExtensionRiskMap : List (String × ℚ) :=
  [(".zip", 0.15), (".tar", 0.15),
   (".png", -0.20), (".jpg", -0.20), (".jpeg", -0.20),
   (".csv", 0.75), (".json", 0.75)]

/-- The global `extensionRiskMap`, which `main` sets to `initExtensionRiskMap`
once and which nothing ever mutates afterwards; hence a constant here. -/
def extensionRiskMap : List (String × ℚ) := initExtensionRiskMap

/-- Go map lookup `m[k]` with its `ok` flag, on the association-list model. -/
def mapLookup (m : List (String × ℚ)) (k : String) : Option ℚ :=
  (m.find? (fun p => p.1 = k)).map (fun p => p.2)

/-- Model of `filepath.Ext`: scan the path backwards from its last character;
the suffix from the final dot before any path separator, else empty.
The first argument is the reversed character list still to scan, the second
the (unreversed) suffix accumulated so far. -/
def extScan : List Char → List Char → List Char
  | [], _ => []
  | c :: rest, acc =>
    if c = '/' then []
    else if c = '.' then c :: acc
    else extScan rest (c :: acc)

/-- Model of `filepath.Ext` on strings. -/
def filepathExt (path : String) : String :=
  String.mk (extScan path.data.reverse [])

/-- `assessExtension`: risk to apply based on the file extension;
an unrecognized extension contributes 0. -/
def assessExtension (path : String) : ℚ :=
  match mapLookup extensionRiskMap (filepathExt path) with
  | some risk => risk
  | none => 0

/-- `checkRiskRange`: clamp a risk into the defined bounds 0.0 – 1.0. -/
def checkRiskRange (risk : ℚ) : ℚ :=
  if risk > maxRisk then maxRisk
  else if risk < minRisk then minRisk
  else risk

/-- `assessFileRisk`: risk of a file from its size, extension and
modification recency; `now` stands for the `time.Now()` call. -/
def assessFileRisk (path : String) (info : FileInfo) (now : Int) : ℚ :=
  let risk0 : ℚ := 0
  let risk1 : ℚ := if info.size > 1000000 then risk0 + 0.25 else risk0
  let risk2 : ℚ := risk1 + assessExtension path
  let timeLastWeek : Int := now - 3600 * hoursInWeek
  if info.modTime > timeLastWeek then risk2 + 0.20 else risk2

/-- `assessDirNameLength`: three-bucket delta on the length of the path
string actually passed in (the docstring's "first folder parent" is not what
the code measures). -/
def assessDirNameLength (path : String) : ℚ :=
  let size := path.length
  if size < 5 then 0.25
  else if size > 15 then -0.10
  else 0.5

/-- Model of `filepath.Abs`: absolute paths pass through, relative ones are
joined to the working directory `cwd` (cleaning omitted). -/
def absPath (cwd path : String) : String :=
  if path.data.head? = some '/' then path else cwd ++ ("/") ++ path

/-- `assessDirRisk`: per-entry scoring; on a nil error and size above 1 KB it
builds the single clamped `FileResult`, otherwise it returns no result. -/
def assessDirRisk (cwd path : String) (info : FileInfo) (err : Option String)
    (now : Int) : List FileResult :=
  if err = none then
    if info.size > 1000 then
      [{ Path := absPath cwd path,
         Risk := checkRiskRange (assessFileRisk path info now + assessDirNameLength path) }]
    else []
  else []

/-- Loop body of `findSmallestRisk`: fold over the remaining results carrying
the smallest risk seen, its index, and the index of the next element. -/
def findSmallestRiskAux : List FileResult → ℚ → Nat → Nat → ℚ × Nat
  | [], smallestRisk, smallestRiskIndex, _ => (smallestRisk, smallestRiskIndex)
  | r :: rest, smallestRisk, smallestRiskIndex, i =>
    if r.Risk < smallestRisk then findSmallestRiskAux rest r.Risk i (i + 1)
    else findSmallestRiskAux rest smallestRisk smallestRiskIndex (i + 1)

/-- `findSmallestRisk`: smallest risk and its index in the buffer, starting
from `maxRisk` at index 0 as in the source. -/
def findSmallestRisk (results : List FileResult) : ℚ × Nat :=
  findSmallestRiskAux results maxRisk 0 0

/-- One iteration of the `i >= maxResults` branch of `trimDownResults`:
replace the current smallest-risk entry when the candidate's risk is
strictly greater, else drop the candidate. -/
def offer (buf : List FileResult) (c : FileResult) : List FileResult :=
  if (findSmallestRisk buf).1 < c.Risk then
    buf.set (findSmallestRisk buf).2 c
  else buf

/-- `trimDownResults`: at most `maxResults` results pass through unchanged;
otherwise the first `maxResults` fill the buffer (loop indices `i < 10`) and
each later element is offered against the buffer's smallest risk. -/
def trimDownResults (results : List FileResult) : List FileResult :=
  if results.length ≤ maxResults then results
  else (results.drop maxResults).foldl offer (results.take maxResults)

/-- Loop of `readCommandLineArgs`, indexed form: `i` is the loop variable,
`acc` the `--dir`/`--out` values found so far.  One Go iteration runs both
`if` blocks in sequence, the second seeing the index already advanced by the
first; the four combined outcomes are written as nested ifs here: when the
`--dir` block fired, the `--out` block tests `args[i+1]` (the value just
consumed) and `i+2 < size`, otherwise it tests `args[i]` and `i+1 < size`.
`fuel` bounds the iteration count; the index strictly increases each round,
so `args.length` fuel suffices. -/
def readArgsLoop (args : List String) :
    Nat → Nat → Option String × Option String → Option String × Option String
  | 0, _, acc => acc
  | fuel + 1, i, acc =>
    if i < args.length then
      if args.getD i ("") = dirArg ∧ i + 1 < args.length then
        if args.getD (i + 1) ("") = outArg ∧ i + 2 < args.length then
          readArgsLoop args fuel (i + 3)
            (some (args.getD (i + 1) ("")), some (args.getD (i + 2) ("")))
        else
          readArgsLoop args fuel (i + 2) (some (args.getD (i + 1) ("")), acc.2)
      else
        if args.getD i ("") = outArg ∧ i + 1 < args.length then
          readArgsLoop args fuel (i + 2) (acc.1, some (args.getD (i + 1) ("")))
        else
          readArgsLoop args fuel (i + 1) acc
    else acc

/-- `readCommandLineArgs`: the `--dir` and `--out` values found in the
argument list (Go returns a two-key map; modelled as the pair of optional
values). -/
def readCommandLineArgs (args : List String) : Option String × Option String :=
  readArgsLoop args args.length 0 (none, none)

/-- One callback event of the `filepath.Walk` traversal: the path, the
`FileInfo` (`none` = the nil interface passed when `lstat` failed) and the
error argument. -/
structure WalkEntry where
  path : String
  info : Option FileInfo
  err : Option String
deriving DecidableEq, Inhabited

/-- The walker's state: the accumulated `finalResult.Results` and the
`currentResults` of the directory being scanned. -/
structure ScanState where
  finalResults : List FileResult
  currentResults : List FileResult
deriving DecidableEq, Inhabited

/-- The anonymous callback `main` passes to `filepath.Walk`.  It evaluates
`info.IsDir()` before anything else, so a `none` info (nil interface) is a
nil-pointer dereference: the model returns `none` (panic).  On a directory
entry it flushes `trimDownResults currentResults` into the final results and
resets; on a file entry it appends `assessDirRisk`'s output. -/
def walkCallback (cwd : String) (now : Int) (st : ScanState) (e : WalkEntry) :
    Option ScanState :=
  match e.info with
  | none => none
  | some info =>
    if info.isDir then
      some { finalResults := st.finalResults ++ trimDownResults st.currentResults,
             currentResults := [] }
    else
      some { finalResults := st.finalResults,
             currentResults := st.currentResults ++ assessDirRisk cwd e.path info e.err now }

/-- Run the walk callback over the traversal's event list, propagating a
panic. -/
def runCallbacks (cwd : String) (now : Int) :
    List WalkEntry → ScanState → Option ScanState
  | [], st => some st
  | e :: rest, st =>
    match walkCallback cwd now st e with
    | none => none
    | some st2 => runCallbacks cwd now rest st2

/-- The walk of `main` plus the final save after it: the flat result list the
program will serialize, or `none` if the callback panicked. -/
def runScan (cwd : String) (now : Int) (events : List WalkEntry) :
    Option (List FileResult) :=
  match runCallbacks cwd now events { finalResults := [], currentResults := [] } with
  | none => none
  | some st => some (st.finalResults ++ trimDownResults st.currentResults)

/-- Outcome of a `main` run. `missingArgs`: printed the flag message and
returned before the walk and before touching the output file. `walkPanic`:
the walk callback panicked. `openError`: the output file could not be
opened, nothing serialized. `written`: the `DirResult` that was encoded. -/
inductive MainOutcome where
  | missingArgs : MainOutcome
  | walkPanic : MainOutcome
  | openError : MainOutcome
  | written : DirResult → MainOutcome
deriving DecidableEq

/-- `main`: initialize the table, parse flags, require both, walk, final
flush, open the output file, write.  `openOk` models whether
`os.OpenFile` succeeds. -/
def runMain (cwd : String) (argv : List String) (events : List WalkEntry)
    (openOk : Bool) (now : Int) : MainOutcome :=
  let args := readCommandLineArgs argv
  match args.1, args.2 with
  | some rootDir, some _outFileName =>
    match runScan cwd now events with
    | none => MainOutcome.walkPanic
    | some results =>
      if openOk then
        MainOutcome.written { Dir := absPath cwd rootDir, Results := results }
      else MainOutcome.openError
  | none, _ => MainOutcome.missingArgs
  | _, none => MainOutcome.missingArgs

/-- Structural restatement of `readCommandLineArgs` (proved equivalent below):
an element is examined together with its successor; a flag with no following
argument is dropped; `--dir`'s value is consumed, but when that value is the
literal `--out` it is still processed as the `--out` flag in the same
iteration; `--out`'s value is consumed and never re-examined. -/
def parseArgsAmended : List String → Option String × Option String →
    Option String × Option String
  | [], acc => acc
  | [_], acc => acc
  | a :: v :: rest, acc =>
    if a = dirArg then
      if v = outArg then
        match rest with
        | [] => (some v, acc.2)
        | w :: rest2 => parseArgsAmended rest2 (some v, some w)
      else parseArgsAmended rest (some v, acc.2)
    else if a = outArg then parseArgsAmended rest (acc.1, some v)
    else parseArgsAmended (v :: rest) acc

/-- The claimed parsing semantics, following the claim's words: a flag's
value is whatever argument immediately follows it, and that value is always
consumed and never seen as a flag; last occurrence wins; a flag that is the
final argument with no value is not provided. -/
def parseArgsClaim : List String → Option String × Option String →
    Option String × Option String
  | [], acc => acc
  | [_], acc => acc
  | a :: v :: rest, acc =>
    if a = dirArg then parseArgsClaim rest (some v, acc.2)
    else if a = outArg then parseArgsClaim rest (acc.1, some v)
    else parseArgsClaim (v :: rest) acc

/-- Two walk events agree observationally when they carry the same path, the
same error-presence, and `FileInfo`s (both absent, or both present with the
same size, modification time and directory bit).  The `name` and `mode`
fields and the error text may differ. -/
def obsAgree (e1 e2 : WalkEntry) : Prop :=
  e1.path = e2.path ∧ (e1.err = none ↔ e2.err = none) ∧
  ((e1.info = none ∧ e2.info = none) ∨
   (∃ i1 i2, e1.info = some i1 ∧ e2.info = some i2 ∧
     i1.size = i2.size ∧ i1.modTime = i2.modTime ∧ i1.isDir = i2.isDir))

/-- Concrete walk event used by witnesses: the big-csv file with one set of
unused metadata. -/
def bigCsvEventA : WalkEntry :=
  { path := "/tmp/files/a/big.csv",
    info := some { name := "big.csv", size := 2000000, modTime := -3600,
                   isDir := false, mode := 420 },
    err := none }

/-- The same observable walk event with different unused metadata
(`name`, `mode`). -/
def bigCsvEventB : WalkEntry :=
  { path := "/tmp/files/a/big.csv",
    info := some { name := "OTHER", size := 2000000, modTime := -3600,
                   isDir := false, mode := 999 },
    err := none }

/-- Concrete 11-result directory used by the C1 witness: ten risks 1/2 and
a final risk 1 (the spec's scenario 8 shape). -/
def tieDemoResults : List FileResult :=
  List.replicate 10 { Path := "t", Risk := 0.5 }
    ++ [{ Path := "big", Risk := 1 }]

/-- Top-K selection property of one directory flush: exactly `maxResults`
results survive, and the survivors are a sub-multiset of the input whose
members all have risk at least that of every discarded member. -/
def topKSelected (rs : List FileResult) : Prop :=
  (trimDownResults rs).length = maxResults ∧
  ∃ disc : List FileResult,
    rs.Perm (trimDownResults rs ++ disc) ∧
    ∀ d ∈ disc, ∀ r ∈ trimDownResults rs, d.Risk ≤ r.Risk

/-- Tie-break property of one buffer offer: the candidate is dropped unless
its risk strictly exceeds the buffer's minimum, in which case it replaces
the entry at `findSmallestRisk`'s index — which holds the minimum risk, and
every entry at a smaller index has strictly greater risk (earliest-inserted
minimum wins on exact ties). -/
def offerTieBreak (buf : List FileResult) (c : FileResult) : Prop :=
  (¬ (findSmallestRisk buf).1 < c.Risk → offer buf c = buf) ∧
  ((findSmallestRisk buf).1 < c.Risk →
    offer buf c = buf.set (findSmallestRisk buf).2 c) ∧
  (findSmallestRisk buf).2 < buf.length ∧
  (buf.getD (findSmallestRisk buf).2 default).Risk = (findSmallestRisk buf).1 ∧
  (∀ x ∈ buf, (findSmallestRisk buf).1 ≤ x.Risk) ∧
  (∀ k, k < (findSmallestRisk buf).2 →
    (findSmallestRisk buf).1 < (buf.getD k default).Risk)

/-! ## Helper lemmas -/

/-- `checkRiskRange` always lands in `[minRisk, maxRisk]`. -/
lemma checkRiskRange_bounds (x : ℚ) :
    minRisk ≤ checkRiskRange x ∧ checkRiskRange x ≤ maxRisk := by
  unfold checkRiskRange maxRisk minRisk
  split_ifs with h1 h2
  · constructor <;> linarith
  · constructor <;> linarith
  · constructor <;> linarith

/-! ## Claim theorems -/

/-- Claim C2 (code bug): the spec says a per-entry metadata failure is
skipped silently and the walk continues, never dereferencing an absent
FileInfo.  The walk callback in `main` evaluates `info.IsDir()` before the
error check, and `filepath.Walk` passes a nil `info` together with a non-nil
error when `lstat` of an entry fails, so the callback dereferences the nil
interface and panics; the walk dies.  This theorem evaluates the embedded
code at such a failing entry: the callback (and a scan containing the
entry) ends in the panic value `none` instead of skipping the entry. -/
theorem walkCallback_panics_on_stat_error (cwd : String) (now : Int)
    (st : ScanState) (p msg : String) :
    walkCallback cwd now st { path := p, info := none, err := some msg } = none ∧
    runScan cwd now [{ path := p, info := none, err := some msg }] = none := by
  exact ⟨rfl, rfl⟩

/-- Claim C4: a file of size ≤ 1000 bytes produces no `FileResult`
(whatever its extension, time or path) and leaves the walker's state
untouched, so it can never reach the top-K selection or any output set. -/
theorem small_file_excluded (cwd path : String) (info : FileInfo)
    (err : Option String) (now : Int) (st : ScanState)
    (hdir : info.isDir = false) (hsize : info.size ≤ 1000) :
    assessDirRisk cwd path info err now = [] ∧
    walkCallback cwd now st { path := path, info := some info, err := err } = some st := by
  have h1 : assessDirRisk cwd path info err now = [] := by
    unfold assessDirRisk
    split
    · rw [if_neg (by omega)]
    · rfl
  refine ⟨h1, ?_⟩
  unfold walkCallback
  simp [hdir, h1]

/-- Witness for C4 at the spec's concrete scenario: `img.png` of 500 bytes. -/
theorem small_file_excluded_witness :
    (({ name := "img.png", size := 500, modTime := 0, isDir := false,
        mode := 0 } : FileInfo).isDir = false) ∧
    (({ name := "img.png", size := 500, modTime := 0, isDir := false,
        mode := 0 } : FileInfo).size ≤ 1000) ∧
    (assessDirRisk ("/w") ("img.png")
      { name := "img.png", size := 500, modTime := 0, isDir := false, mode := 0 }
      none 0 = [] ∧
    walkCallback ("/w") 0 { finalResults := [], currentResults := [] }
      { path := ("img.png"),
        info := some { name := "img.png", size := 500, modTime := 0,
                       isDir := false, mode := 0 },
        err := none } = some { finalResults := [], currentResults := [] }) :=
  ⟨rfl, by norm_num,
   small_file_excluded ("/w") ("img.png") _ none 0 _ rfl (by norm_num)⟩

/-- Claim C3: `checkRiskRange` clamps (values above `maxRisk` become
`maxRisk`, below `minRisk` become `minRisk`, in-range values pass through),
and every `FileResult` built by the scoring pipeline carries exactly the
clamped sum of file risk and directory-name-length delta, hence a risk in
`[0, 1]`. -/
theorem fileResult_risk_clamped (cwd path : String) (info : FileInfo)
    (err : Option String) (now : Int) :
    (∀ x : ℚ, (maxRisk < x → checkRiskRange x = maxRisk) ∧
      (x < minRisk → checkRiskRange x = minRisk) ∧
      (minRisk ≤ x → x ≤ maxRisk → checkRiskRange x = x)) ∧
    ∀ r ∈ assessDirRisk cwd path info err now,
      r.Risk = checkRiskRange (assessFileRisk path info now + assessDirNameLength path) ∧
      minRisk ≤ r.Risk ∧ r.Risk ≤ maxRisk := by
  constructor
  · intro x
    have hmm : minRisk < maxRisk := by norm_num [minRisk, maxRisk]
    refine ⟨?_, ?_, ?_⟩ <;> intros <;> unfold checkRiskRange <;>
      split_ifs <;> first | rfl | linarith
  · intro r hr
    unfold assessDirRisk at hr
    split at hr
    · split at hr
      · simp only [List.mem_singleton] at hr
        subst hr
        exact ⟨rfl, checkRiskRange_bounds _⟩
      · simp at hr
    · simp at hr

/-- Witness for C3 at concrete clamp inputs: 2 clamps down to `maxRisk`,
−1 clamps up to `minRisk`. -/
theorem fileResult_risk_clamped_witness :
    (maxRisk < (2 : ℚ) ∧ checkRiskRange 2 = maxRisk) ∧
    ((-1 : ℚ) < minRisk ∧ checkRiskRange (-1) = minRisk) :=
  ⟨⟨by norm_num [maxRisk],
    ((fileResult_risk_clamped ("/w") ("p") default none 0).1 2).1
      (by norm_num [maxRisk])⟩,
   ⟨by norm_num [minRisk],
    ((fileResult_risk_clamped ("/w") ("p") default none 0).1 (-1)).2.1
      (by norm_num [minRisk])⟩⟩

/-- Claim C5: the extension table holds exactly the seven tabulated deltas,
any other extension string is absent from the table, and `assessExtension`
contributes exactly 0 for a path whose extension is absent; the table is a
constant fixed at start (`extensionRiskMap` is definitionally
`initExtensionRiskMap`, and no code writes to it after `main`'s one
initialization). -/
theorem extension_table_values (s p : String) :
    mapLookup extensionRiskMap (".zip") = some 0.15 ∧
    mapLookup extensionRiskMap (".tar") = some 0.15 ∧
    mapLookup extensionRiskMap (".png") = some (-0.20) ∧
    mapLookup extensionRiskMap (".jpg") = some (-0.20) ∧
    mapLookup extensionRiskMap (".jpeg") = some (-0.20) ∧
    mapLookup extensionRiskMap (".csv") = some 0.75 ∧
    mapLookup extensionRiskMap (".json") = some 0.75 ∧
    extensionRiskMap = initExtensionRiskMap ∧
    (s ∉ [".zip", ".tar", ".png", ".jpg", ".jpeg", ".csv", ".json"] →
      mapLookup extensionRiskMap s = none) ∧
    (mapLookup extensionRiskMap (filepathExt p) = none → assessExtension p = 0) := by
  refine ⟨rfl, rfl, rfl, rfl, rfl, rfl, rfl, rfl, ?_, ?_⟩
  · intro h
    simp only [List.mem_cons, List.not_mem_nil, or_false] at h
    push_neg at h
    obtain ⟨h1, h2, h3, h4, h5, h6, h7⟩ := h
    simp [mapLookup, extensionRiskMap, initExtensionRiskMap, List.find?,
      Ne.symm h1, Ne.symm h2, Ne.symm h3, Ne.symm h4, Ne.symm h5, Ne.symm h6,
      Ne.symm h7]
  · intro h
    unfold assessExtension
    rw [h]

/-- Witness for C5: `".txt"` is absent from the table and a `.txt` path
scores an extension delta of 0. -/
theorem extension_table_values_witness :
    ((".txt" : String) ∉ [".zip", ".tar", ".png", ".jpg", ".jpeg", ".csv", ".json"] ∧
      mapLookup extensionRiskMap (".txt") = none) ∧
    (mapLookup extensionRiskMap (filepathExt ("notes.txt")) = none ∧
      assessExtension ("notes.txt") = 0) :=
  ⟨⟨by decide, (extension_table_values (".txt") ("notes.txt")).2.2.2.2.2.2.2.2.1 (by decide)⟩,
   ⟨by decide, (extension_table_values (".txt") ("notes.txt")).2.2.2.2.2.2.2.2.2 (by decide)⟩⟩

/-- Claim C6: the spec's concrete scenario — `big.csv`, 2,000,000 bytes,
modified one hour before `now`, path string of length 20 — has raw risk
0.25 + 0.75 + 0.20 − 0.10 = 1.10, and the constructed `FileResult` carries
exactly the clamped risk 1.0. -/
theorem big_csv_risk_clamped_to_one (cwd nm : String) (mode : Nat) (now : Int) :
    assessFileRisk ("/tmp/files/a/big.csv")
        { name := nm, size := 2000000, modTime := now - 3600, isDir := false,
          mode := mode } now
      + assessDirNameLength ("/tmp/files/a/big.csv") = 11 / 10 ∧
    assessDirRisk cwd ("/tmp/files/a/big.csv")
        { name := nm, size := 2000000, modTime := now - 3600, isDir := false,
          mode := mode } none now
      = [{ Path := ("/tmp/files/a/big.csv"), Risk := 1 }] := by
  have hext : assessExtension ("/tmp/files/a/big.csv") = 0.75 := rfl
  have hlen : String.length ("/tmp/files/a/big.csv") = 20 := by decide
  have htime : now - 3600 > now - 3600 * hoursInWeek := by unfold hoursInWeek; omega
  have hraw : assessFileRisk ("/tmp/files/a/big.csv")
      { name := nm, size := 2000000, modTime := now - 3600, isDir := false,
        mode := mode } now
      + assessDirNameLength ("/tmp/files/a/big.csv") = 11 / 10 := by
    simp only [assessFileRisk, assessDirNameLength, hext, hlen]
    norm_num [htime]
  have habs : absPath cwd ("/tmp/files/a/big.csv") = ("/tmp/files/a/big.csv") := by
    unfold absPath
    rw [if_pos (by decide)]
  have hclamp : checkRiskRange (11 / 10) = 1 := by
    unfold checkRiskRange maxRisk
    rw [if_pos (by norm_num)]
  have hsz : ({ name := nm, size := 2000000, modTime := now - 3600, isDir := false, mode := mode } : FileInfo).size > 1000 := by norm_num
  refine ⟨hraw, ?_⟩
  unfold assessDirRisk
  rw [if_pos (show (none : Option String) = none from rfl)]
  rw [if_pos hsz]
  rw [hraw, habs, hclamp]

/-- Per-entry scoring only reads the path, size, modification time and
error-presence. -/
lemma assessDirRisk_obs (cwd p : String) (i1 i2 : FileInfo)
    (e1 e2 : Option String) (now : Int)
    (hs : i1.size = i2.size) (hm : i1.modTime = i2.modTime)
    (he : e1 = none ↔ e2 = none) :
    assessDirRisk cwd p i1 e1 now = assessDirRisk cwd p i2 e2 now := by
  unfold assessDirRisk assessFileRisk
  rw [hs, hm]
  by_cases h2 : e2 = none
  · rw [if_pos (he.mpr h2), if_pos h2]
  · rw [if_neg (fun h => h2 (he.mp h)), if_neg h2]

/-- The walk callback maps observationally equal events identically. -/
lemma walkCallback_obs (cwd : String) (now : Int) (st : ScanState)
    {e1 e2 : WalkEntry} (h : obsAgree e1 e2) :
    walkCallback cwd now st e1 = walkCallback cwd now st e2 := by
  obtain ⟨hp, he, hinfo⟩ := h
  unfold walkCallback
  rcases hinfo with ⟨h1, h2⟩ | ⟨i1, i2, h1, h2, hs, hm, hd⟩
  · rw [h1, h2]
  · rw [h1, h2]
    simp only [hp, hd]
    by_cases hdir : i2.isDir
    · rw [if_pos hdir, if_pos hdir]
    · rw [if_neg hdir, if_neg hdir,
        assessDirRisk_obs cwd e2.path i1 i2 e1.err e2.err now hs hm he]

/-- Running the callbacks over observationally equal event lists from the
same state gives the same result. -/
lemma runCallbacks_obs (cwd : String) (now : Int) {evs1 evs2 : List WalkEntry}
    (h : List.Forall₂ obsAgree evs1 evs2) :
    ∀ st, runCallbacks cwd now evs1 st = runCallbacks cwd now evs2 st := by
  induction h with
  | nil => intro st; rfl
  | cons hrel _ ih =>
    intro st
    unfold runCallbacks
    rw [walkCallback_obs cwd now st hrel]
    cases walkCallback cwd now st _ with
    | none => rfl
    | some st2 => exact ih st2

/-- Claim C8: the scan's output is a deterministic function of each entry's
path, size, modification time (plus error- and directory-shape) and the time
reference `now`: two walks whose event lists agree on exactly those
observations — the `name`/`mode` metadata and error text may differ — yield
identical results, so re-running over an unchanged tree reproduces every
risk value. -/
theorem scan_risks_deterministic (cwd : String) (now : Int)
    {evs1 evs2 : List WalkEntry} (h : List.Forall₂ obsAgree evs1 evs2) :
    runScan cwd now evs1 = runScan cwd now evs2 := by
  unfold runScan
  rw [runCallbacks_obs cwd now h]

/-- Witness for C8: two single-file walks differing only in the unused
`name` and `mode` metadata produce the same output. -/
theorem scan_risks_deterministic_witness :
    List.Forall₂ obsAgree [bigCsvEventA] [bigCsvEventB] ∧
    runScan ("/w") 0 [bigCsvEventA] = runScan ("/w") 0 [bigCsvEventB] := by
  have hagree : List.Forall₂ obsAgree [bigCsvEventA] [bigCsvEventB] := by
    refine List.Forall₂.cons ?_ List.Forall₂.nil
    exact ⟨rfl, Iff.rfl, Or.inr ⟨_, _, rfl, rfl, rfl, rfl, rfl⟩⟩
  exact ⟨hagree, scan_risks_deterministic ("/w") 0 hagree⟩

/-- Reading a valid index splits `drop` into that element and the rest. -/
lemma drop_eq_getD_cons {l : List String} {i : Nat} (h : i < l.length) :
    l.drop i = l.getD i ("") :: l.drop (i + 1) := by
  have h1 : l.getD i ("") = l.get ⟨i, h⟩ := by
    rw [List.getD_eq_get?, List.get?_eq_get h]
    rfl
  rw [h1, List.drop_eq_get_cons h]

/-- Unfolding `parseArgsAmended`: `--dir` whose value is `--out` with a
further argument behind it sets both flags. -/
lemma parseArgsAmended_dir_out_cons (v w : String) (t : List String)
    (acc : Option String × Option String) (hv : v = outArg) :
    parseArgsAmended (dirArg :: v :: w :: t) acc = parseArgsAmended t (some v, some w) := by
  subst hv
  rfl

/-- Unfolding `parseArgsAmended`: `--dir` whose value is a final `--out`. -/
lemma parseArgsAmended_dir_out_nil (v : String)
    (acc : Option String × Option String) (hv : v = outArg) :
    parseArgsAmended [dirArg, v] acc = (some v, acc.2) := by
  subst hv
  rfl

/-- Unfolding `parseArgsAmended`: `--dir` with a non-`--out` value. -/
lemma parseArgsAmended_dir_other (v : String) (t : List String)
    (acc : Option String × Option String) (hv : v ≠ outArg) :
    parseArgsAmended (dirArg :: v :: t) acc = parseArgsAmended t (some v, acc.2) := by
  rw [parseArgsAmended.eq_def]
  simp [hv]

/-- Unfolding `parseArgsAmended`: `--out` with a value. -/
lemma parseArgsAmended_out (a v : String) (t : List String)
    (acc : Option String × Option String) (_ha : a ≠ dirArg) (ha2 : a = outArg) :
    parseArgsAmended (a :: v :: t) acc = parseArgsAmended t (acc.1, some v) := by
  have hne : outArg ≠ dirArg := by decide
  rw [parseArgsAmended.eq_def]
  simp [ha2, hne]

/-- Unfolding `parseArgsAmended`: any non-flag head is skipped. -/
lemma parseArgsAmended_skip (a : String) (l : List String)
    (acc : Option String × Option String) (ha : a ≠ dirArg) (ha2 : a ≠ outArg) :
    parseArgsAmended (a :: l) acc = parseArgsAmended l acc := by
  cases l with
  | nil => rfl
  | cons v t =>
    rw [parseArgsAmended.eq_def]
    simp [ha, ha2]

/-- The indexed Go loop computes `parseArgsAmended` on the unread suffix,
given enough fuel. -/
lemma readArgsLoop_eq (fuel : Nat) :
    ∀ (args : List String) (i : Nat) (acc : Option String × Option String),
      args.length ≤ i + fuel →
      readArgsLoop args fuel i acc = parseArgsAmended (args.drop i) acc := by
  induction fuel with
  | zero =>
    intro args i acc h
    rw [List.drop_eq_nil_of_le (by omega)]
    rfl
  | succ fuel ih =>
    intro args i acc h
    by_cases hi : i < args.length
    · rw [drop_eq_getD_cons hi]
      unfold readArgsLoop
      rw [if_pos hi]
      by_cases h1 : args.getD i ("") = dirArg ∧ i + 1 < args.length
      · rw [if_pos h1, h1.1, drop_eq_getD_cons h1.2]
        by_cases h2 : args.getD (i + 1) ("") = outArg ∧ i + 2 < args.length
        · rw [if_pos h2, drop_eq_getD_cons h2.2,
            parseArgsAmended_dir_out_cons _ _ _ acc h2.1,
            ih args (i + 3)
              (some (args.getD (i + 1) ("")), some (args.getD (i + 2) ("")))
              (by omega)]
        · rw [if_neg h2]
          by_cases hv : args.getD (i + 1) ("") = outArg
          · have hnlt : ¬ (i + 2 < args.length) := fun hh => h2 ⟨hv, hh⟩
            have hnil : args.drop (i + 2) = [] := List.drop_eq_nil_of_le (by omega)
            rw [hnil, parseArgsAmended_dir_out_nil _ acc hv,
              ih args (i + 2) (some (args.getD (i + 1) ("")), acc.2) (by omega),
              hnil]
            rfl
          · rw [parseArgsAmended_dir_other _ _ acc hv,
              ih args (i + 2) (some (args.getD (i + 1) ("")), acc.2) (by omega)]
      · rw [if_neg h1]
        by_cases h2 : args.getD i ("") = outArg ∧ i + 1 < args.length
        · have hne : args.getD i ("") ≠ dirArg := by
            intro hEq
            exact absurd (hEq.symm.trans h2.1) (by decide)
          rw [if_pos h2, drop_eq_getD_cons h2.2,
            parseArgsAmended_out _ _ _ acc hne h2.1,
            ih args (i + 2) (acc.1, some (args.getD (i + 1) (""))) (by omega)]
        · rw [if_neg h2, ih args (i + 1) acc (by omega)]
          by_cases hi1 : i + 1 < args.length
          · have had : args.getD i ("") ≠ dirArg := fun hEq => h1 ⟨hEq, hi1⟩
            have hao : args.getD i ("") ≠ outArg := fun hEq => h2 ⟨hEq, hi1⟩
            rw [parseArgsAmended_skip _ _ acc had hao]
          · have hnil : args.drop (i + 1) = [] := List.drop_eq_nil_of_le (by omega)
            rw [hnil]
            rfl
    · rw [List.drop_eq_nil_of_le (by omega)]
      unfold readArgsLoop
      rw [if_neg hi]
      rfl

/-- `readCommandLineArgs` equals the structural description (helper shared by
the C7 and C9 results). -/
lemma readCommandLineArgs_eq_amended (args : List String) :
    readCommandLineArgs args = parseArgsAmended args (none, none) := by
  unfold readCommandLineArgs
  rw [readArgsLoop_eq args.length args 0 (none, none) (by omega), List.drop_zero]

/-- If the literal `--dir` never occurs, no `--dir` value is ever recorded. -/
lemma parseArgsAmended_no_dir :
    ∀ (n : Nat) (l : List String), l.length ≤ n → ∀ acc : Option String × Option String,
      dirArg ∉ l → (parseArgsAmended l acc).1 = acc.1 := by
  intro n
  induction n with
  | zero =>
    intro l hl acc _
    have hnil : l = [] := List.length_eq_zero.mp (by omega)
    subst hnil
    rfl
  | succ n ih =>
    intro l hl acc hmem
    match l with
    | [] => rfl
    | [a] => rfl
    | a :: v :: rest =>
      have ha : a ≠ dirArg := fun hEq => hmem (hEq ▸ List.mem_cons_self a _)
      by_cases ha2 : a = outArg
      · rw [parseArgsAmended_out a v rest acc ha ha2]
        exact ih rest (by simp at hl ⊢; omega) _
          (fun hm => hmem (List.mem_cons_of_mem _ (List.mem_cons_of_mem _ hm)))
      · rw [parseArgsAmended_skip a (v :: rest) acc ha ha2]
        exact ih (v :: rest) (by simp at hl ⊢; omega) _
          (fun hm => hmem (List.mem_cons_of_mem _ hm))

/-- If the literal `--out` never occurs, no `--out` value is ever recorded. -/
lemma parseArgsAmended_no_out :
    ∀ (n : Nat) (l : List String), l.length ≤ n → ∀ acc : Option String × Option String,
      outArg ∉ l → (parseArgsAmended l acc).2 = acc.2 := by
  intro n
  induction n with
  | zero =>
    intro l hl acc _
    have hnil : l = [] := List.length_eq_zero.mp (by omega)
    subst hnil
    rfl
  | succ n ih =>
    intro l hl acc hmem
    match l with
    | [] => rfl
    | [a] => rfl
    | a :: v :: rest =>
      have ha2 : a ≠ outArg := fun hEq => hmem (hEq ▸ List.mem_cons_self a _)
      have hrest : outArg ∉ rest :=
        fun hm => hmem (List.mem_cons_of_mem _ (List.mem_cons_of_mem _ hm))
      by_cases ha : a = dirArg
      · have hv : v ≠ outArg :=
          fun hEq => hmem (hEq ▸ List.mem_cons_of_mem _ (List.mem_cons_self v _))
        rw [ha, parseArgsAmended_dir_other v rest acc hv]
        exact ih rest (by simp at hl ⊢; omega) _ hrest
      · rw [parseArgsAmended_skip a (v :: rest) acc ha ha2]
        exact ih (v :: rest) (by simp at hl ⊢; omega) _
          (fun hm => hmem (List.mem_cons_of_mem _ hm))

/-- Claim C9 counterexample: on `["--dir", "--out", "f"]` the code records
`--out` both as `--dir`'s value and as a flag (taking `"f"`), while the
claimed semantics — the consumed value is never seen as a flag — would leave
`--out` unset. -/
theorem readArgs_consumed_value_counterexample :
    readCommandLineArgs [dirArg, outArg, "f"]
      ≠ parseArgsClaim [dirArg, outArg, "f"] (none, none) ∧
    readCommandLineArgs [dirArg, outArg, "f"] = (some outArg, some "f") ∧
    parseArgsClaim [dirArg, outArg, "f"] (none, none) = (some outArg, none) := by
  refine ⟨by decide, rfl, rfl⟩

/-- Claim C9 (amended): `readCommandLineArgs` behaves as the structural
description `parseArgsAmended`: the last processed occurrence of a flag
wins; a flag that is the final argument with no value after it is ignored; a
flag's value is the immediately following argument even if it is itself a
flag, and that value is consumed — except that when `--dir`'s value is the
literal `--out`, it is additionally still processed as the `--out` flag in
the same iteration (taking the next argument as its value); `--out`'s value
is never re-examined as a flag. -/
theorem readCommandLineArgs_amended_semantics (args : List String) :
    readCommandLineArgs args = parseArgsAmended args (none, none) :=
  readCommandLineArgs_eq_amended args

/-- Claim C7: when the parsed arguments lack `--dir` or `--out` — in
particular whenever the literal flag is absent from the command line — the
program takes the early `missingArgs` exit: the message branch that returns
before `filepath.Walk` runs and before the output file is opened or
created. -/
theorem missing_flags_early_exit (cwd : String) (argv : List String)
    (events : List WalkEntry) (openOk : Bool) (now : Int) :
    ((readCommandLineArgs argv).1 = none ∨ (readCommandLineArgs argv).2 = none →
      runMain cwd argv events openOk now = MainOutcome.missingArgs) ∧
    (dirArg ∉ argv → (readCommandLineArgs argv).1 = none) ∧
    (outArg ∉ argv → (readCommandLineArgs argv).2 = none) := by
  refine ⟨?_, ?_, ?_⟩
  · intro h
    unfold runMain
    rcases hp : readCommandLineArgs argv with ⟨d, o⟩
    rw [hp] at h
    cases d with
    | none =>
      cases o with
      | none => rfl
      | some ov => rfl
    | some dv =>
      cases o with
      | none => rfl
      | some ov => simp at h
  · intro hmem
    rw [readCommandLineArgs_eq_amended argv]
    exact parseArgsAmended_no_dir argv.length argv le_rfl (none, none) hmem
  · intro hmem
    rw [readCommandLineArgs_eq_amended argv]
    exact parseArgsAmended_no_out argv.length argv le_rfl (none, none) hmem

/-- Witness for C7: with `["--dir", "x"]` the `--out` flag is absent, the
parse records no `--out` value, and `main` exits with the message before
walking or opening anything. -/
theorem missing_flags_early_exit_witness :
    (outArg ∉ ["--dir", "x"] ∧ (readCommandLineArgs ["--dir", "x"]).2 = none) ∧
    ((readCommandLineArgs ["--dir", "x"]).1 = none ∨
      (readCommandLineArgs ["--dir", "x"]).2 = none) ∧
    runMain ("/w") ["--dir", "x"] [bigCsvEventA] true 0 = MainOutcome.missingArgs := by
  have hno : outArg ∉ ["--dir", "x"] := by decide
  have h2 := (missing_flags_early_exit ("/w") ["--dir", "x"] [bigCsvEventA] true 0).2.2 hno
  exact ⟨⟨hno, h2⟩, Or.inr h2,
    (missing_flags_early_exit ("/w") ["--dir", "x"] [bigCsvEventA] true 0).1 (Or.inr h2)⟩

/-- A valid `getD` read is a member of the list. -/
lemma getD_mem {l : List FileResult} {j : Nat} (h : j < l.length) :
    l.getD j default ∈ l := by
  rw [List.getD_eq_getElem?_getD, List.getElem?_eq_getElem h]
  exact List.getElem_mem h

/-- Characterization of the `findSmallestRisk` loop on the remaining list:
either no element beats the incoming smallest and the accumulator survives,
or the result is the first strict improvement's final value — which is a
lower bound of the list, strictly below the incoming value, and strictly
below every earlier element. -/
lemma findSmallestRiskAux_spec (l : List FileResult) :
    ∀ (sm : ℚ) (si i : Nat),
      (findSmallestRiskAux l sm si i = (sm, si) ∧ ∀ x ∈ l, sm ≤ x.Risk) ∨
      (∃ k, k < l.length ∧
        findSmallestRiskAux l sm si i = ((l.getD k default).Risk, i + k) ∧
        (l.getD k default).Risk < sm ∧
        (∀ x ∈ l, (l.getD k default).Risk ≤ x.Risk) ∧
        (∀ k2, k2 < k → (l.getD k default).Risk < (l.getD k2 default).Risk)) := by
  induction l with
  | nil =>
    intro sm si i
    exact Or.inl ⟨rfl, by simp⟩
  | cons r rest ih =>
    intro sm si i
    by_cases hlt : r.Risk < sm
    · have hstep : findSmallestRiskAux (r :: rest) sm si i
          = findSmallestRiskAux rest r.Risk i (i + 1) := by
        unfold findSmallestRiskAux
        rw [if_pos hlt, ← findSmallestRiskAux.eq_def]
      rcases ih r.Risk i (i + 1) with ⟨heq, hall⟩ | ⟨k, hk, heq, hklt, hall, hfirst⟩
      · refine Or.inr ⟨0, by simp, ?_, by simpa using hlt, ?_, by omega⟩
        · rw [hstep, heq]
          simp
        · intro x hx
          rcases List.mem_cons.mp hx with hx | hx
          · subst hx; simp
          · simpa using hall x hx
      · refine Or.inr ⟨k + 1, by simpa using hk, ?_, ?_, ?_, ?_⟩
        · rw [hstep, heq]
          simp only [List.getD_cons_succ]
          have : i + 1 + k = i + (k + 1) := by omega
          rw [this]
        · simpa using lt_trans hklt hlt
        · intro x hx
          rcases List.mem_cons.mp hx with hx | hx
          · subst hx
            simpa using le_of_lt hklt
          · simpa using hall x hx
        · intro k2 hk2
          cases k2 with
          | zero => simpa using hklt
          | succ k2 => simpa using hfirst k2 (by omega)
    · have hstep : findSmallestRiskAux (r :: rest) sm si i
          = findSmallestRiskAux rest sm si (i + 1) := by
        unfold findSmallestRiskAux
        rw [if_neg hlt, ← findSmallestRiskAux.eq_def]
      rcases ih sm si (i + 1) with ⟨heq, hall⟩ | ⟨k, hk, heq, hklt, hall, hfirst⟩
      · refine Or.inl ⟨hstep.trans heq, ?_⟩
        intro x hx
        rcases List.mem_cons.mp hx with hx | hx
        · subst hx; exact le_of_not_lt hlt
        · exact hall x hx
      · refine Or.inr ⟨k + 1, by simpa using hk, ?_, ?_, ?_, ?_⟩
        · rw [hstep, heq]
          simp only [List.getD_cons_succ]
          have : i + 1 + k = i + (k + 1) := by omega
          rw [this]
        · simpa using hklt
        · intro x hx
          rcases List.mem_cons.mp hx with hx | hx
          · subst hx
            simpa using le_of_lt (lt_of_lt_of_le hklt (le_of_not_lt hlt))
          · simpa using hall x hx
        · intro k2 hk2
          cases k2 with
          | zero => simpa using lt_of_lt_of_le hklt (le_of_not_lt hlt)
          | succ k2 => simpa using hfirst k2 (by omega)

/-- On a nonempty buffer of in-range risks, `findSmallestRisk` returns the
minimum risk together with the index of its first occurrence. -/
lemma findSmallestRisk_spec (buf : List FileResult) (hne : buf ≠ [])
    (hb : ∀ x ∈ buf, x.Risk ≤ maxRisk) :
    (findSmallestRisk buf).2 < buf.length ∧
    (buf.getD (findSmallestRisk buf).2 default).Risk = (findSmallestRisk buf).1 ∧
    (∀ x ∈ buf, (findSmallestRisk buf).1 ≤ x.Risk) ∧
    (∀ k, k < (findSmallestRisk buf).2 →
      (findSmallestRisk buf).1 < (buf.getD k default).Risk) := by
  unfold findSmallestRisk
  rcases findSmallestRiskAux_spec buf maxRisk 0 0 with ⟨heq, hall⟩ |
    ⟨k, hk, heq, _, hall, hfirst⟩
  · rw [heq]
    obtain ⟨r0, rest, rfl⟩ : ∃ r0 rest, buf = r0 :: rest := by
      cases buf with
      | nil => exact absurd rfl hne
      | cons a l => exact ⟨a, l, rfl⟩
    have h1 := hall r0 (List.mem_cons_self r0 rest)
    have h2 := hb r0 (List.mem_cons_self r0 rest)
    refine ⟨by simp, ?_, hall, ?_⟩
    · have hr0 : r0.Risk = maxRisk := le_antisymm h2 h1
      simpa using hr0
    · intro k hk
      exact absurd hk (Nat.not_lt_zero k)
  · rw [heq]
    simp only [Nat.zero_add]
    exact ⟨hk, by trivial, hall, hfirst⟩

/-- `offer` never changes the buffer's length. -/
lemma offer_length (buf : List FileResult) (c : FileResult) :
    (offer buf c).length = buf.length := by
  unfold offer
  split
  · simp
  · rfl

/-- Folding `offer` never changes the buffer's length. -/
lemma foldl_offer_length : ∀ (l buf : List FileResult),
    (List.foldl offer buf l).length = buf.length := by
  intro l
  induction l with
  | nil => intro buf; rfl
  | cons c rest ih =>
    intro buf
    rw [List.foldl_cons, ih, offer_length]

/-- Replacing index `j` by `c` and appending the evicted element permutes
appending `c` to the original buffer. -/
lemma set_append_perm : ∀ (buf : List FileResult) (j : Nat), j < buf.length →
    ∀ c : FileResult, (buf.set j c ++ [buf.getD j default]).Perm (buf ++ [c]) := by
  intro buf
  induction buf with
  | nil =>
    intro j hj
    simp at hj
  | cons b tl ih =>
    intro j hj c
    cases j with
    | zero =>
      simp only [List.set_cons_zero, List.getD_cons_zero]
      have p2 : ((c :: (tl ++ [b])) : List FileResult).Perm (c :: b :: tl) :=
        (List.perm_append_singleton b tl).cons c
      have p3 : ((c :: b :: tl) : List FileResult).Perm (b :: c :: tl) :=
        List.Perm.swap b c tl
      have p5 : ((b :: (tl ++ [c])) : List FileResult).Perm (b :: c :: tl) :=
        (List.perm_append_singleton c tl).cons b
      exact (p2.trans p3).trans p5.symm
    | succ j =>
      have hj2 : j < tl.length := by simpa using hj
      simp only [List.set_cons_succ, List.getD_cons_succ]
      exact List.Perm.cons b (ih j hj2 c)

/-- Invariant of the offer fold: starting from a full buffer of in-range
risks, the processed elements split into the final buffer plus a discard
pile, every discarded risk is at most every retained risk, and any lower
bound of the starting buffer still bounds the final buffer from below. -/
lemma foldl_offer_spec :
    ∀ (l buf : List FileResult),
      buf.length = maxResults →
      (∀ x ∈ buf, x.Risk ≤ maxRisk) →
      (∀ x ∈ l, x.Risk ≤ maxRisk) →
      ∃ disc : List FileResult,
        (buf ++ l).Perm (List.foldl offer buf l ++ disc) ∧
        (∀ d ∈ disc, ∀ r ∈ List.foldl offer buf l, d.Risk ≤ r.Risk) ∧
        (∀ q : ℚ, (∀ x ∈ buf, q ≤ x.Risk) →
          ∀ r ∈ List.foldl offer buf l, q ≤ r.Risk) := by
  intro l
  induction l with
  | nil =>
    intro buf _ _ _
    exact ⟨[], by simp, by simp, fun q hq r hr => hq r (by simpa using hr)⟩
  | cons c rest ih =>
    intro buf hlen hb hl
    have hbne : buf ≠ [] := by
      intro hEq
      rw [hEq] at hlen
      simp [maxResults] at hlen
    obtain ⟨hjlt, hgetD, hmin, _⟩ := findSmallestRisk_spec buf hbne hb
    have hcb : c.Risk ≤ maxRisk := hl c (List.mem_cons_self c rest)
    have hrest : ∀ x ∈ rest, x.Risk ≤ maxRisk :=
      fun x hx => hl x (List.mem_cons_of_mem c hx)
    rw [List.foldl_cons]
    by_cases hlt : (findSmallestRisk buf).1 < c.Risk
    · have hoff : offer buf c = buf.set (findSmallestRisk buf).2 c := by
        unfold offer
        rw [if_pos hlt]
      rw [hoff]
      have hlen2 : (buf.set (findSmallestRisk buf).2 c).length = maxResults := by
        rw [List.length_set, hlen]
      have hb2 : ∀ x ∈ buf.set (findSmallestRisk buf).2 c, x.Risk ≤ maxRisk := by
        intro x hx
        rcases List.mem_or_eq_of_mem_set hx with hx2 | hx2
        · exact hb x hx2
        · subst hx2; exact hcb
      obtain ⟨disc, hperm, hord, hlb⟩ := ih (buf.set (findSmallestRisk buf).2 c)
        hlen2 hb2 hrest
      have hlb2 : ∀ x ∈ buf.set (findSmallestRisk buf).2 c,
          (buf.getD (findSmallestRisk buf).2 default).Risk ≤ x.Risk := by
        intro x hx
        rcases List.mem_or_eq_of_mem_set hx with hx2 | hx2
        · exact hgetD ▸ hmin x hx2
        · subst hx2; exact le_of_lt (hgetD ▸ hlt)
      refine ⟨buf.getD (findSmallestRisk buf).2 default :: disc, ?_, ?_, ?_⟩
      · have s1 := List.Perm.append_right rest
          (set_append_perm buf (findSmallestRisk buf).2 hjlt c)
        rw [List.append_assoc, List.append_assoc] at s1
        simp only [List.singleton_append] at s1
        have s2 : ((buf.set (findSmallestRisk buf).2 c
              ++ buf.getD (findSmallestRisk buf).2 default :: rest) : List FileResult).Perm
            ((buf.set (findSmallestRisk buf).2 c ++ rest)
              ++ [buf.getD (findSmallestRisk buf).2 default]) := by
          rw [List.append_assoc]
          exact List.Perm.append_left _ (List.perm_append_singleton _ rest).symm
        have s3 := List.Perm.append_right
          [buf.getD (findSmallestRisk buf).2 default] hperm
        have s4 : ((List.foldl offer (buf.set (findSmallestRisk buf).2 c) rest
              ++ disc) ++ [buf.getD (findSmallestRisk buf).2 default] : List FileResult).Perm
            (List.foldl offer (buf.set (findSmallestRisk buf).2 c) rest
              ++ buf.getD (findSmallestRisk buf).2 default :: disc) := by
          rw [List.append_assoc]
          exact List.Perm.append_left _ (List.perm_append_singleton _ disc)
        exact s1.symm.trans (s2.trans (s3.trans s4))
      · intro d hd r hr
        rcases List.mem_cons.mp hd with hd2 | hd2
        · subst hd2
          exact hlb _ hlb2 r hr
        · exact hord d hd2 r hr
      · intro q hq r hr
        refine hlb q ?_ r hr
        intro x hx
        rcases List.mem_or_eq_of_mem_set hx with hx2 | hx2
        · exact hq x hx2
        · subst hx2
          exact le_of_lt (lt_of_le_of_lt
            (le_of_le_of_eq (hq _ (getD_mem hjlt)) hgetD) hlt)
    · have hoff : offer buf c = buf := by
        unfold offer
        rw [if_neg hlt]
      rw [hoff]
      obtain ⟨disc, hperm, hord, hlb⟩ := ih buf hlen hb hrest
      refine ⟨c :: disc, ?_, ?_, ?_⟩
      · have s2 : ((buf ++ c :: rest) : List FileResult).Perm
            ((buf ++ rest) ++ [c]) := by
          rw [List.append_assoc]
          exact List.Perm.append_left _ (List.perm_append_singleton c rest).symm
        have s3 := List.Perm.append_right [c] hperm
        have s4 : ((List.foldl offer buf rest ++ disc) ++ [c] : List FileResult).Perm
            (List.foldl offer buf rest ++ c :: disc) := by
          rw [List.append_assoc]
          exact List.Perm.append_left _ (List.perm_append_singleton c disc)
        exact s2.trans (s3.trans s4)
      · intro d hd r hr
        rcases List.mem_cons.mp hd with hd2 | hd2
        · subst hd2
          refine hlb d.Risk ?_ r hr
          intro x hx
          exact le_trans (le_of_not_lt hlt) (hmin x hx)
        · exact hord d hd2 r hr
      · intro q hq r hr
        exact hlb q hq r hr

/-- Claim C10: `trimDownResults` returns inputs of at most `maxResults`
elements unchanged (same list, same order), and returns exactly
`maxResults` elements for any longer input. -/
theorem trimDown_length_spec (rs : List FileResult) :
    (rs.length ≤ maxResults → trimDownResults rs = rs) ∧
    (maxResults < rs.length → (trimDownResults rs).length = maxResults) := by
  constructor
  · intro h
    unfold trimDownResults
    rw [if_pos h]
  · intro h
    unfold trimDownResults
    rw [if_neg (by omega), foldl_offer_length, List.length_take]
    exact Nat.min_eq_left (by omega)

/-- Witness for C10: a 3-element list passes through unchanged, an
11-element list is cut to exactly 10. -/
theorem trimDown_length_spec_witness :
    (([{ Path := "a", Risk := 1 }] : List FileResult).length ≤ maxResults ∧
      trimDownResults [{ Path := "a", Risk := 1 }] = [{ Path := "a", Risk := 1 }]) ∧
    (maxResults < (List.replicate 11 ({ Path := "b", Risk := 0 } : FileResult)).length ∧
      (trimDownResults (List.replicate 11 { Path := "b", Risk := 0 })).length
        = maxResults) :=
  ⟨⟨by decide, (trimDown_length_spec [{ Path := "a", Risk := 1 }]).1 (by decide)⟩,
   ⟨by decide, (trimDown_length_spec
      (List.replicate 11 { Path := "b", Risk := 0 })).2 (by decide)⟩⟩

/-- Claim C1: for a directory's contiguous run of more than `maxResults`
qualifying files (their risks clamped, hence at most `maxRisk`), the flush
keeps exactly `maxResults` results forming a sub-multiset of the input, each
retained risk at least every discarded risk; and each offer follows the
tie-break: a candidate replaces the buffer's minimum only when strictly
greater, the evicted slot holds the minimum risk, and every earlier slot is
strictly above it, so the earliest-inserted minimum is the one evicted. -/
theorem trimDown_topK_selection (rs : List FileResult)
    (h1 : maxResults < rs.length) (h2 : ∀ x ∈ rs, x.Risk ≤ maxRisk) :
    topKSelected rs ∧
    ∀ buf c, buf.length = maxResults → (∀ x ∈ buf, x.Risk ≤ maxRisk) →
      offerTieBreak buf c := by
  constructor
  · have htake : (rs.take maxResults).length = maxResults := by
      rw [List.length_take]
      exact Nat.min_eq_left (by omega)
    have hbtake : ∀ x ∈ rs.take maxResults, x.Risk ≤ maxRisk :=
      fun x hx => h2 x (List.take_subset maxResults rs hx)
    have hbdrop : ∀ x ∈ rs.drop maxResults, x.Risk ≤ maxRisk :=
      fun x hx => h2 x (List.drop_subset maxResults rs hx)
    have htrim : trimDownResults rs
        = (rs.drop maxResults).foldl offer (rs.take maxResults) := by
      unfold trimDownResults
      rw [if_neg (by omega)]
    obtain ⟨disc, hperm, hord, _⟩ :=
      foldl_offer_spec (rs.drop maxResults) (rs.take maxResults) htake hbtake hbdrop
    refine ⟨(trimDown_length_spec rs).2 h1, disc, ?_, ?_⟩
    · rw [htrim]
      conv_lhs => rw [← List.take_append_drop maxResults rs]
      exact hperm
    · rw [htrim]
      exact hord
  · intro buf c hlen hb
    have hbne : buf ≠ [] := by
      intro hEq
      rw [hEq] at hlen
      simp [maxResults] at hlen
    obtain ⟨hjlt, hgetD, hmin, hfirst⟩ := findSmallestRisk_spec buf hbne hb
    refine ⟨?_, ?_, hjlt, hgetD, hmin, hfirst⟩
    · intro hnlt
      unfold offer
      rw [if_neg hnlt]
    · intro hlt
      unfold offer
      rw [if_pos hlt]

/-- Witness for C1 at the concrete 11-element directory `tieDemoResults`. -/
theorem trimDown_topK_selection_witness :
    (maxResults < tieDemoResults.length ∧
      ∀ x ∈ tieDemoResults, x.Risk ≤ maxRisk) ∧
    (topKSelected tieDemoResults ∧
      ∀ buf c, buf.length = maxResults → (∀ x ∈ buf, x.Risk ≤ maxRisk) →
        offerTieBreak buf c) := by
  have hlen : maxResults < tieDemoResults.length := by
    simp [tieDemoResults, maxResults]
  have hb : ∀ x ∈ tieDemoResults, x.Risk ≤ maxRisk := by
    intro x hx
    rcases List.mem_append.mp hx with hx | hx
    · rw [List.eq_of_mem_replicate hx]
      norm_num [maxRisk]
    · rw [List.mem_singleton.mp hx]
      norm_num [maxRisk]
  exact ⟨⟨hlen, hb⟩, trimDown_topK_selection tieDemoResults hlen hb⟩

end RiskScan
